import Mathlib

/-!
Verification of `firebase::CppInstanceManager<InstanceClass>`
(src/app/src/cpp_instance_manager.h), a mutex-guarded reference-counting
registry mapping instance addresses to `int32_t` reference counts.

Embedding notes.
* Instance addresses (`InstanceClass*`) are modelled as natural numbers,
  with `0` playing the role of the null pointer.
* The table `container_ : std::unordered_map<InstanceClass*, int32_t>` is
  modelled as a function `InstancePtr → Option Int` (unordered_map keys are
  unique by identity, and the code only uses find / emplace / increment /
  decrement / erase through an iterator to the looked-up key).
* Reference counts are `int32_t` in the source; they are modelled as
  unbounded `Int`.  Incrementing `INT32_MAX` is signed overflow, which is
  undefined behaviour in C++, so executions that would overflow lie outside
  the defined behaviour being modelled.
* Every public call holds `manager_mutex_` for its whole table-touching
  extent, so a call is one atomic step; concurrency is modelled by
  interleaving those atomic steps (`Op`, `step`, `runTrace`).
* The observable effects of one call are its `int` return value, the table
  state at exit, and the instance passed to `delete`, if any (`CallResult`).
-/

namespace firebase

/-- Instance addresses (`InstanceClass*`), modelled as naturals; `0` is the
null pointer. -/
abbrev InstancePtr := Nat

/-- The null pointer, `nullptr`. -/
def nullPtr : InstancePtr := 0

/-- State of a `CppInstanceManager<InstanceClass>`: the field
`container_ : std::unordered_map<InstanceClass*, int32_t>` mapping an
instance address to its reference count.  `manager_mutex_` has no modelled
state of its own; it only makes each public call atomic. -/
structure CppInstanceManager where
  container_ : InstancePtr → Option Int

/-- A freshly constructed manager (`CppInstanceManager() {}`): empty table. -/
def CppInstanceManager.init : CppInstanceManager := ⟨fun _ => none⟩

/-- Observable outcome of one call: the `int` return value, the table state on
exit from the critical section, and the instance passed to `delete` during the
call, if any. -/
structure CallResult where
  ret : Int
  state : CppInstanceManager
  deleted : Option InstancePtr

/-- `AddReference` (cpp_instance_manager.h lines 91-103).  Under the lock,
look `inst` up in `container_`; if present, increment the stored count and
return it; otherwise `emplace(instance, 1)` and return the stored `1`.
Nothing is ever deleted here.  The debug-only `FIREBASE_DEV_ASSERT_MESSAGE`
on a null `inst` does not change the release-build control flow, which is
what is embedded. -/
def CppInstanceManager.AddReference (m : CppInstanceManager) (inst : InstancePtr) :
    CallResult :=
  match m.container_ inst with
  | some c =>
      { ret := c + 1
        state := ⟨fun p => if p = inst then some (c + 1) else m.container_ p⟩
        deleted := none }
  | none =>
      { ret := 1
        state := ⟨fun p => if p = inst then some 1 else m.container_ p⟩
        deleted := none }

/-- `ReleaseReference` (cpp_instance_manager.h lines 108-121).  A null `inst`
returns `-1` at once.  Otherwise, under the lock, look `inst` up: if absent,
return `-1`; if present, decrement the stored count (`--it->second`); when the
decremented count is `0`, `delete it->first` and erase the entry; return the
decremented count. -/
def CppInstanceManager.ReleaseReference (m : CppInstanceManager) (inst : InstancePtr) :
    CallResult :=
  if inst = nullPtr then { ret := -1, state := m, deleted := none }
  else
    match m.container_ inst with
    | some c =>
        if c - 1 = 0 then
          { ret := c - 1
            state := ⟨fun p => if p = inst then none else m.container_ p⟩
            deleted := some inst }
        else
          { ret := c - 1
            state := ⟨fun p => if p = inst then some (c - 1) else m.container_ p⟩
            deleted := none }
    | none => { ret := -1, state := m, deleted := none }

/-- `~CppInstanceManager()` (cpp_instance_manager.h lines 66-79): the cleanup
loop that would delete the remaining tracked instances is commented out
(TODO b/121161177, suspected double deletion), so the destructor deletes
nothing and still-tracked instances are leaked.  Result: the list of
instances the destructor passes to `delete`. -/
def destructorDeleted (_m : CppInstanceManager) : List InstancePtr := []

/-- One atomic public call on the manager.  `mutexAcc` is the accessor
`Mutex& mutex()` (line 125), which touches no table state. -/
inductive Op where
  | add (inst : InstancePtr)
  | rel (inst : InstancePtr)
  | mutexAcc
deriving DecidableEq

/-- Effect of one atomic call on the table: resulting state and the instance
deleted during the call, if any. -/
def step (m : CppInstanceManager) : Op → CppInstanceManager × Option InstancePtr
  | Op.add i => ((m.AddReference i).state, (m.AddReference i).deleted)
  | Op.rel i => ((m.ReleaseReference i).state, (m.ReleaseReference i).deleted)
  | Op.mutexAcc => (m, none)

/-- Run a sequence of atomic calls; collect the final state and the list of
all deletions, in order. -/
def runTrace (m : CppInstanceManager) : List Op → CppInstanceManager × List InstancePtr
  | [] => (m, [])
  | op :: tr =>
      ((runTrace (step m op).1 tr).1,
        ((step m op).2).toList ++ (runTrace (step m op).1 tr).2)

/-- Well-formedness of the table: every stored reference count is at least 1
(an instance appears in the table iff its count is ≥ 1). -/
def WF (m : CppInstanceManager) : Prop :=
  ∀ p c, m.container_ p = some c → 1 ≤ c

/-- Registry states reachable from a freshly constructed manager through the
public API. -/
inductive Reachable : CppInstanceManager → Prop
  | init : Reachable CppInstanceManager.init
  | add (m : CppInstanceManager) (i : InstancePtr) :
      Reachable m → Reachable (m.AddReference i).state
  | rel (m : CppInstanceManager) (i : InstancePtr) :
      Reachable m → Reachable (m.ReleaseReference i).state

/-- `tr` is an interleaving of `N` threads each running `AddReference x` then,
later in its own program order, `ReleaseReference x`: exactly `N` adds and `N`
releases of `x`, and in every prefix the releases never outnumber the adds. -/
def isInterleaving (x : InstancePtr) (N : Nat) (tr : List Op) : Prop :=
  tr.length = 2 * N ∧
  tr.count (Op.add x) = N ∧
  (∀ op ∈ tr, op = Op.add x ∨ op = Op.rel x) ∧
  ∀ k ∈ List.range (tr.length + 1),
    (tr.take k).count (Op.rel x) ≤ (tr.take k).count (Op.add x)

/-! ### Basic lemmas about the two calls -/

theorem addReference_container_self (m : CppInstanceManager) (x : InstancePtr) :
    (m.AddReference x).state.container_ x = some ((m.AddReference x).ret) := by
  cases h : m.container_ x <;>
    simp [CppInstanceManager.AddReference, h]

theorem addReference_deleted (m : CppInstanceManager) (x : InstancePtr) :
    (m.AddReference x).deleted = none := by
  cases h : m.container_ x <;>
    simp [CppInstanceManager.AddReference, h]

theorem addReference_container_other (m : CppInstanceManager) (x y : InstancePtr)
    (hxy : y ≠ x) :
    (m.AddReference x).state.container_ y = m.container_ y := by
  cases h : m.container_ x <;>
    simp [CppInstanceManager.AddReference, h, hxy]

theorem releaseReference_container_other (m : CppInstanceManager) (x y : InstancePtr)
    (hxy : y ≠ x) :
    (m.ReleaseReference x).state.container_ y = m.container_ y := by
  by_cases hx : x = nullPtr
  · simp [CppInstanceManager.ReleaseReference, hx]
  · cases h : m.container_ x with
    | none => simp [CppInstanceManager.ReleaseReference, hx, h]
    | some c =>
        by_cases hc : c - 1 = 0 <;>
          simp [CppInstanceManager.ReleaseReference, hx, h, hc, hxy]

theorem releaseReference_at_one (m : CppInstanceManager) (x : InstancePtr)
    (hx : x ≠ nullPtr) (h : m.container_ x = some 1) :
    (m.ReleaseReference x).ret = 0 ∧
    (m.ReleaseReference x).deleted = some x ∧
    (m.ReleaseReference x).state.container_ x = none := by
  simp [CppInstanceManager.ReleaseReference, hx, h]

theorem releaseReference_untracked (m : CppInstanceManager) (x : InstancePtr)
    (h : m.container_ x = none) :
    (m.ReleaseReference x).ret = -1 ∧
    (m.ReleaseReference x).state = m ∧
    (m.ReleaseReference x).deleted = none := by
  by_cases hx : x = nullPtr <;>
    simp [CppInstanceManager.ReleaseReference, hx, h]

theorem releaseReference_null (m : CppInstanceManager) :
    (m.ReleaseReference nullPtr).ret = -1 ∧
    (m.ReleaseReference nullPtr).state = m ∧
    (m.ReleaseReference nullPtr).deleted = none := by
  simp [CppInstanceManager.ReleaseReference]

theorem releaseReference_above_one (m : CppInstanceManager) (x : InstancePtr)
    (hx : x ≠ nullPtr) (c : Int) (hc : 1 < c) (h : m.container_ x = some c) :
    (m.ReleaseReference x).ret = c - 1 ∧
    (m.ReleaseReference x).deleted = none ∧
    (m.ReleaseReference x).state.container_ x = some (c - 1) := by
  have hne : c - 1 ≠ 0 := by omega
  simp [CppInstanceManager.ReleaseReference, hx, h, hne]

/-! ### The counts-positive invariant -/

theorem wf_init : WF CppInstanceManager.init := by
  intro p c h
  simp [CppInstanceManager.init] at h

theorem wf_addReference (m : CppInstanceManager) (hWF : WF m) (i : InstancePtr) :
    WF (m.AddReference i).state := by
  intro p c hp
  cases h : m.container_ i with
  | none =>
      simp [CppInstanceManager.AddReference, h] at hp
      by_cases hpi : p = i
      · simp [hpi] at hp
        omega
      · exact hWF p c (by simpa [hpi] using hp)
  | some c0 =>
      have h0 : 1 ≤ c0 := hWF i c0 h
      simp [CppInstanceManager.AddReference, h] at hp
      by_cases hpi : p = i
      · simp [hpi] at hp
        omega
      · exact hWF p c (by simpa [hpi] using hp)

theorem wf_releaseReference (m : CppInstanceManager) (hWF : WF m) (i : InstancePtr) :
    WF (m.ReleaseReference i).state := by
  intro p c hp
  by_cases hi : i = nullPtr
  · exact hWF p c (by simpa [CppInstanceManager.ReleaseReference, hi] using hp)
  · cases h : m.container_ i with
    | none =>
        exact hWF p c (by simpa [CppInstanceManager.ReleaseReference, hi, h] using hp)
    | some c0 =>
        have h0 : 1 ≤ c0 := hWF i c0 h
        by_cases hc : c0 - 1 = 0
        · simp [CppInstanceManager.ReleaseReference, hi, h, hc] at hp
          by_cases hpi : p = i
          · simp [hpi] at hp
          · exact hWF p c (by simpa [hpi] using hp)
        · simp [CppInstanceManager.ReleaseReference, hi, h, hc] at hp
          by_cases hpi : p = i
          · simp [hpi] at hp
            omega
          · exact hWF p c (by simpa [hpi] using hp)

theorem wf_of_reachable (m : CppInstanceManager) (h : Reachable m) : WF m := by
  induction h with
  | init => exact wf_init
  | add m i _ ih => exact wf_addReference m ih i
  | rel m i _ ih => exact wf_releaseReference m ih i

/-! ### Claim theorems -/

/-- C1: for every instance `x` tracked with reference count exactly 1,
`ReleaseReference(x)` returns 0, deletes `x` exactly once, and removes `x`'s
table entry within the same call; a subsequent `ReleaseReference(x)` returns
-1, deletes nothing and leaves the state unchanged, so a double release past
zero is structurally impossible. -/
theorem c1_release_at_count_one (m : CppInstanceManager) (x : InstancePtr)
    (hx : x ≠ nullPtr) (h : m.container_ x = some 1) :
    (m.ReleaseReference x).ret = 0 ∧
    (m.ReleaseReference x).deleted = some x ∧
    (m.ReleaseReference x).state.container_ x = none ∧
    ((m.ReleaseReference x).state.ReleaseReference x).ret = -1 ∧
    ((m.ReleaseReference x).state.ReleaseReference x).deleted = none ∧
    ((m.ReleaseReference x).state.ReleaseReference x).state =
      (m.ReleaseReference x).state := by
  obtain ⟨h1, h2, h3⟩ := releaseReference_at_one m x hx h
  obtain ⟨h4, h5, h6⟩ := releaseReference_untracked (m.ReleaseReference x).state x h3
  exact ⟨h1, h2, h3, h4, h6, h5⟩

/-- C1 witness: a manager tracking `5` with count 1. -/
theorem c1_witness :
    ((CppInstanceManager.init.AddReference 5).state.ReleaseReference 5).ret = 0 ∧
    ((CppInstanceManager.init.AddReference 5).state.ReleaseReference 5).deleted = some 5 ∧
    ((CppInstanceManager.init.AddReference 5).state.ReleaseReference 5).state.container_ 5
      = none ∧
    (((CppInstanceManager.init.AddReference 5).state.ReleaseReference 5).state.ReleaseReference
      5).ret = -1 ∧
    (((CppInstanceManager.init.AddReference 5).state.ReleaseReference 5).state.ReleaseReference
      5).deleted = none ∧
    (((CppInstanceManager.init.AddReference 5).state.ReleaseReference 5).state.ReleaseReference
      5).state = ((CppInstanceManager.init.AddReference 5).state.ReleaseReference 5).state :=
  c1_release_at_count_one (CppInstanceManager.init.AddReference 5).state 5
    (by decide) rfl

/-- C2: for every non-null `x`, `AddReference(x)` increments `x`'s count when
present and otherwise inserts it with count 1; it returns the stored count
after the increment, which on a well-formed table is always ≥ 1, and it never
deletes anything. -/
theorem c2_addReference (m : CppInstanceManager) (hWF : WF m) (x : InstancePtr)
    (_hx : x ≠ nullPtr) :
    (∀ c, m.container_ x = some c → (m.AddReference x).ret = c + 1) ∧
    (m.container_ x = none → (m.AddReference x).ret = 1) ∧
    (m.AddReference x).state.container_ x = some ((m.AddReference x).ret) ∧
    1 ≤ (m.AddReference x).ret ∧
    (m.AddReference x).deleted = none := by
  refine ⟨?_, ?_, addReference_container_self m x, ?_, addReference_deleted m x⟩
  · intro c hc
    simp [CppInstanceManager.AddReference, hc]
  · intro hc
    simp [CppInstanceManager.AddReference, hc]
  · cases h : m.container_ x with
    | none => simp [CppInstanceManager.AddReference, h]
    | some c =>
        have h0 : 1 ≤ c := hWF x c h
        simp [CppInstanceManager.AddReference, h]
        omega

/-- C2 witness: adding `5` to the empty (well-formed) table. -/
theorem c2_witness :
    (∀ c, CppInstanceManager.init.container_ 5 = some c →
      (CppInstanceManager.init.AddReference 5).ret = c + 1) ∧
    (CppInstanceManager.init.container_ 5 = none →
      (CppInstanceManager.init.AddReference 5).ret = 1) ∧
    (CppInstanceManager.init.AddReference 5).state.container_ 5 =
      some ((CppInstanceManager.init.AddReference 5).ret) ∧
    1 ≤ (CppInstanceManager.init.AddReference 5).ret ∧
    (CppInstanceManager.init.AddReference 5).deleted = none :=
  c2_addReference CppInstanceManager.init wf_init 5 (by decide)

/-- C3: in every reachable registry state, every stored reference count is
strictly positive (an instance appears in the table iff its count is ≥ 1);
the invariant is preserved by both calls from any reachable state, and the
entry whose count reaches 0 is removed within the same `ReleaseReference`
call. -/
theorem c3_invariant (m : CppInstanceManager) (h : Reachable m) :
    (∀ p c, m.container_ p = some c → 1 ≤ c) ∧
    (∀ i p c, (m.AddReference i).state.container_ p = some c → 1 ≤ c) ∧
    (∀ i p c, (m.ReleaseReference i).state.container_ p = some c → 1 ≤ c) ∧
    (∀ x, x ≠ nullPtr → m.container_ x = some 1 →
      (m.ReleaseReference x).state.container_ x = none) := by
  have hWF : WF m := wf_of_reachable m h
  exact ⟨hWF, fun i => wf_addReference m hWF i, fun i => wf_releaseReference m hWF i,
    fun x hx h1 => (releaseReference_at_one m x hx h1).2.2⟩

/-- C3 witness: the reachable state obtained by one `AddReference(5)`. -/
theorem c3_witness :
    (∀ p c, (CppInstanceManager.init.AddReference 5).state.container_ p = some c → 1 ≤ c) ∧
    (∀ i p c,
      ((CppInstanceManager.init.AddReference 5).state.AddReference i).state.container_ p =
        some c → 1 ≤ c) ∧
    (∀ i p c,
      ((CppInstanceManager.init.AddReference 5).state.ReleaseReference i).state.container_ p =
        some c → 1 ≤ c) ∧
    (∀ x, x ≠ nullPtr → (CppInstanceManager.init.AddReference 5).state.container_ x = some 1 →
      ((CppInstanceManager.init.AddReference 5).state.ReleaseReference x).state.container_ x =
        none) :=
  c3_invariant (CppInstanceManager.init.AddReference 5).state
    (Reachable.add CppInstanceManager.init 5 Reachable.init)

/-- C4: on a well-formed table, `ReleaseReference(x)` returns -1 iff `x` is
null or not currently tracked, and in that case the state is completely
unchanged and nothing is deleted. -/
theorem c4_release_minus_one (m : CppInstanceManager) (hWF : WF m) (x : InstancePtr) :
    ((m.ReleaseReference x).ret = -1 ↔ (x = nullPtr ∨ m.container_ x = none)) ∧
    ((x = nullPtr ∨ m.container_ x = none) →
      (m.ReleaseReference x).state = m ∧ (m.ReleaseReference x).deleted = none) := by
  constructor
  · constructor
    · intro hret
      by_contra hcon
      push_neg at hcon
      obtain ⟨hx, htr⟩ := hcon
      cases h : m.container_ x with
      | none => exact htr h
      | some c =>
          have h0 : 1 ≤ c := hWF x c h
          by_cases hc : c - 1 = 0
          · simp [CppInstanceManager.ReleaseReference, hx, h, hc] at hret
          · simp [CppInstanceManager.ReleaseReference, hx, h, hc] at hret
            omega
    · rintro (hx | hx)
      · subst hx
        exact (releaseReference_null m).1
      · exact (releaseReference_untracked m x hx).1
  · rintro (hx | hx)
    · subst hx
      exact ⟨(releaseReference_null m).2.1, (releaseReference_null m).2.2⟩
    · exact ⟨(releaseReference_untracked m x hx).2.1,
        (releaseReference_untracked m x hx).2.2⟩

/-- C4 witness: releasing the null pointer on the empty (well-formed) table. -/
theorem c4_witness :
    ((CppInstanceManager.init.ReleaseReference 0).ret = -1 ↔
      ((0 : InstancePtr) = nullPtr ∨ CppInstanceManager.init.container_ 0 = none)) ∧
    (((0 : InstancePtr) = nullPtr ∨ CppInstanceManager.init.container_ 0 = none) →
      (CppInstanceManager.init.ReleaseReference 0).state = CppInstanceManager.init ∧
      (CppInstanceManager.init.ReleaseReference 0).deleted = none) :=
  c4_release_minus_one CppInstanceManager.init wf_init 0

/-- C5: for every `x` tracked with count `n > 1`, `ReleaseReference(x)`
returns `n - 1`, deletes nothing, keeps `x` in the table (with count
`n - 1`), and a subsequent `AddReference(x)` returns `n`. -/
theorem c5_release_above_one (m : CppInstanceManager) (x : InstancePtr)
    (hx : x ≠ nullPtr) (n : Int) (hn : 1 < n) (h : m.container_ x = some n) :
    (m.ReleaseReference x).ret = n - 1 ∧
    (m.ReleaseReference x).deleted = none ∧
    (m.ReleaseReference x).state.container_ x = some (n - 1) ∧
    ((m.ReleaseReference x).state.AddReference x).ret = n := by
  obtain ⟨h1, h2, h3⟩ := releaseReference_above_one m x hx n hn h
  refine ⟨h1, h2, h3, ?_⟩
  simp [CppInstanceManager.AddReference, h3]

/-- C5 witness: a manager tracking `5` with count 2. -/
theorem c5_witness :
    (((CppInstanceManager.init.AddReference 5).state.AddReference 5).state.ReleaseReference
      5).ret = 2 - 1 ∧
    (((CppInstanceManager.init.AddReference 5).state.AddReference 5).state.ReleaseReference
      5).deleted = none ∧
    (((CppInstanceManager.init.AddReference 5).state.AddReference 5).state.ReleaseReference
      5).state.container_ 5 = some (2 - 1) ∧
    ((((CppInstanceManager.init.AddReference 5).state.AddReference 5).state.ReleaseReference
      5).state.AddReference 5).ret = 2 :=
  c5_release_above_one
    ((CppInstanceManager.init.AddReference 5).state.AddReference 5).state 5
    (by decide) 2 (by decide) rfl

/-- `n` consecutive `AddReference x` calls on `m`, no intervening releases. -/
def addCalls (m : CppInstanceManager) (x : InstancePtr) : Nat → CppInstanceManager
  | 0 => m
  | n + 1 => ((addCalls m x n).AddReference x).state

theorem addCalls_container (m : CppInstanceManager) (x : InstancePtr)
    (h : m.container_ x = none) :
    ∀ n, 1 ≤ n → (addCalls m x n).container_ x = some (n : Int) := by
  intro n hn
  induction n with
  | zero => omega
  | succ k ih =>
      cases Nat.eq_or_lt_of_le hn with
      | inl h1 =>
          have hk : k = 0 := by omega
          subst hk
          simp [addCalls, CppInstanceManager.AddReference, h]
      | inr h1 =>
          have hk : 1 ≤ k := by omega
          have hkc := ih hk
          have := addReference_container_self (addCalls m x k) x
          simp only [addCalls]
          rw [this]
          congr 1
          simp [CppInstanceManager.AddReference, hkc]

/-- C6: starting from a state where `x` is untracked, the `n`-th of `n`
consecutive `AddReference(x)` calls (no intervening releases) returns `n`; in
particular the first call returns 1, so the returned count strictly increases
with the number of adds. -/
theorem c6_add_returns_n (m : CppInstanceManager) (x : InstancePtr)
    (h : m.container_ x = none) (n : Nat) (hn : 1 ≤ n) :
    ((addCalls m x (n - 1)).AddReference x).ret = (n : Int) := by
  cases n with
  | zero => omega
  | succ k =>
      cases Nat.eq_zero_or_pos k with
      | inl hk =>
          subst hk
          simp [addCalls, CppInstanceManager.AddReference, h]
      | inr hk =>
          have hc := addCalls_container m x h k hk
          have : k + 1 - 1 = k := rfl
          rw [this]
          simp [CppInstanceManager.AddReference, hc]

/-- C6 witness: the third of three consecutive `AddReference(5)` calls from
the empty table returns 3. -/
theorem c6_witness :
    ((addCalls CppInstanceManager.init 5 (3 - 1)).AddReference 5).ret = ((3 : Nat) : Int) :=
  c6_add_returns_n CppInstanceManager.init 5 rfl 3 (by decide)

/-- C7: destruction happens only at a zero-crossing release: whenever an
atomic call on the manager deletes an instance `x`, that call is
`ReleaseReference(x)` with `x` non-null and tracked with count exactly 1
(so the count crossed from 1 to 0 in that call); in particular neither
`AddReference` nor the `mutex()` accessor ever deletes anything. -/
theorem c7_destruction_only_zero_crossing (m : CppInstanceManager) (op : Op)
    (x : InstancePtr) (h : (step m op).2 = some x) :
    op = Op.rel x ∧ x ≠ nullPtr ∧ m.container_ x = some 1 := by
  cases op with
  | add i =>
      rw [step, addReference_deleted m i] at h
      exact absurd h (by simp)
  | mutexAcc =>
      rw [step] at h
      exact absurd h (by simp)
  | rel i =>
      rw [step] at h
      by_cases hi : i = nullPtr
      · simp [CppInstanceManager.ReleaseReference, hi] at h
      · cases hc : m.container_ i with
        | none => simp [CppInstanceManager.ReleaseReference, hi, hc] at h
        | some c =>
            by_cases h1 : c - 1 = 0
            · have hix : i = x := by
                simpa [CppInstanceManager.ReleaseReference, hi, hc, h1] using h
              subst hix
              have : c = 1 := by omega
              subst this
              exact ⟨rfl, hi, hc⟩
            · simp [CppInstanceManager.ReleaseReference, hi, hc, h1] at h

/-- C7 witness: the deletion performed by `ReleaseReference(5)` on a manager
tracking `5` with count 1 comes from a zero-crossing release. -/
theorem c7_witness :
    Op.rel 5 = Op.rel 5 ∧ (5 : InstancePtr) ≠ nullPtr ∧
    (CppInstanceManager.init.AddReference 5).state.container_ 5 = some 1 :=
  c7_destruction_only_zero_crossing (CppInstanceManager.init.AddReference 5).state
    (Op.rel 5) 5 rfl

/-- C9: tearing down the registry deletes nothing: the destructor's cleanup
loop is commented out in the source, so for every registry state every
still-tracked instance is leaked, with no deletion (hence no double free) at
shutdown. -/
theorem c9_destructor_leaks (m : CppInstanceManager) :
    destructorDeleted m = [] ∧
    ∀ x, x ∉ destructorDeleted m := by
  exact ⟨rfl, fun x => by simp [destructorDeleted]⟩

/-- C9 witness: a registry with a remaining entry is torn down without any
deletion. -/
theorem c9_witness :
    destructorDeleted (CppInstanceManager.init.AddReference 5).state = [] ∧
    ∀ x, x ∉ destructorDeleted (CppInstanceManager.init.AddReference 5).state :=
  c9_destructor_leaks (CppInstanceManager.init.AddReference 5).state

/-- C10 (frame property): for distinct instances `y ≠ x`, `AddReference(x)`
and `ReleaseReference(x)` leave `y`'s table entry unchanged and never delete
`y`; each call touches at most the entry keyed by its argument. -/
theorem c10_frame (m : CppInstanceManager) (x y : InstancePtr) (hxy : y ≠ x) :
    (m.AddReference x).state.container_ y = m.container_ y ∧
    (m.AddReference x).deleted ≠ some y ∧
    (m.ReleaseReference x).state.container_ y = m.container_ y ∧
    (m.ReleaseReference x).deleted ≠ some y := by
  refine ⟨addReference_container_other m x y hxy, ?_,
    releaseReference_container_other m x y hxy, ?_⟩
  · rw [addReference_deleted m x]
    simp
  · by_cases hx : x = nullPtr
    · simp [CppInstanceManager.ReleaseReference, hx]
    · cases hc : m.container_ x with
      | none => simp [CppInstanceManager.ReleaseReference, hx, hc]
      | some c =>
          by_cases h1 : c - 1 = 0 <;>
            simp [CppInstanceManager.ReleaseReference, hx, hc, h1, Ne.symm hxy]

/-- C10 witness: releasing and re-adding `5` leaves the distinct tracked
instance `7` untouched. -/
theorem c10_witness :
    ((CppInstanceManager.init.AddReference 5).state.AddReference 7).state.container_ 5 =
      (CppInstanceManager.init.AddReference 5).state.container_ 5 ∧
    ((CppInstanceManager.init.AddReference 5).state.AddReference 7).deleted ≠ some 5 ∧
    ((CppInstanceManager.init.AddReference 5).state.ReleaseReference 7).state.container_ 5 =
      (CppInstanceManager.init.AddReference 5).state.container_ 5 ∧
    ((CppInstanceManager.init.AddReference 5).state.ReleaseReference 7).deleted ≠ some 5 :=
  c10_frame (CppInstanceManager.init.AddReference 5).state 7 5 (by decide)

/-! ### Trace lemmas for the concurrency claim -/

theorem runTrace_append (m : CppInstanceManager) (t1 t2 : List Op) :
    runTrace m (t1 ++ t2) =
      ((runTrace (runTrace m t1).1 t2).1,
        (runTrace m t1).2 ++ (runTrace (runTrace m t1).1 t2).2) := by
  induction t1 generalizing m with
  | nil => simp [runTrace]
  | cons op tr ih =>
      simp only [List.cons_append, runTrace, List.append_eq]
      rw [ih (step m op).1]
      simp [List.append_assoc]

theorem runTrace_adds_from_some (x : InstancePtr) :
    ∀ (k : Nat) (m : CppInstanceManager) (c : Int), m.container_ x = some c →
      (runTrace m (List.replicate k (Op.add x))).2 = [] ∧
      (runTrace m (List.replicate k (Op.add x))).1.container_ x = some (c + (k : Int)) := by
  intro k
  induction k with
  | zero =>
      intro m c hc
      simpa [runTrace] using hc
  | succ j ih =>
      intro m c hc
      have hstate : (step m (Op.add x)).1.container_ x = some (c + 1) := by
        simp [step, CppInstanceManager.AddReference, hc]
      have hdel : (step m (Op.add x)).2 = none := by
        simp [step, addReference_deleted]
      obtain ⟨ih1, ih2⟩ := ih (step m (Op.add x)).1 (c + 1) hstate
      constructor
      · simp [List.replicate_succ, runTrace, hdel, ih1]
      · rw [List.replicate_succ]
        simp only [runTrace]
        rw [ih2]
        congr 1
        push_cast
        ring

theorem runTrace_adds_from_none (x : InstancePtr) (N : Nat) (hN : 1 ≤ N)
    (m : CppInstanceManager) (hm : m.container_ x = none) :
    (runTrace m (List.replicate N (Op.add x))).2 = [] ∧
    (runTrace m (List.replicate N (Op.add x))).1.container_ x = some (N : Int) := by
  cases N with
  | zero => omega
  | succ K =>
      have hstate : (step m (Op.add x)).1.container_ x = some 1 := by
        simp [step, CppInstanceManager.AddReference, hm]
      have hdel : (step m (Op.add x)).2 = none := by
        simp [step, addReference_deleted]
      obtain ⟨h1, h2⟩ := runTrace_adds_from_some x K (step m (Op.add x)).1 1 hstate
      constructor
      · simp [List.replicate_succ, runTrace, hdel, h1]
      · rw [List.replicate_succ]
        simp only [runTrace]
        rw [h2]
        congr 1
        push_cast
        ring

theorem runTrace_rels_below (x : InstancePtr) (hx : x ≠ nullPtr) :
    ∀ (k : Nat) (m : CppInstanceManager) (c : Int), m.container_ x = some c →
      (k : Int) < c →
      (runTrace m (List.replicate k (Op.rel x))).2 = [] ∧
      (runTrace m (List.replicate k (Op.rel x))).1.container_ x = some (c - (k : Int)) := by
  intro k
  induction k with
  | zero =>
      intro m c hc _
      simpa [runTrace] using hc
  | succ j ih =>
      intro m c hc hlt
      have hne : c - 1 ≠ 0 := by
        have : ((j : Int) + 1) < c := by push_cast at hlt ⊢; omega
        omega
      have hstate : (step m (Op.rel x)).1.container_ x = some (c - 1) := by
        simp [step, CppInstanceManager.ReleaseReference, hx, hc, hne]
      have hdel : (step m (Op.rel x)).2 = none := by
        simp [step, CppInstanceManager.ReleaseReference, hx, hc, hne]
      have hlt1 : (j : Int) < c - 1 := by push_cast at hlt ⊢; omega
      obtain ⟨ih1, ih2⟩ := ih (step m (Op.rel x)).1 (c - 1) hstate hlt1
      constructor
      · simp [List.replicate_succ, runTrace, hdel, ih1]
      · rw [List.replicate_succ]
        simp only [runTrace]
        rw [ih2]
        congr 1
        push_cast
        ring

theorem runTrace_rels_exact (x : InstancePtr) (hx : x ≠ nullPtr) :
    ∀ (k : Nat) (m : CppInstanceManager), m.container_ x = some ((k : Int) + 1) →
      (runTrace m (List.replicate (k + 1) (Op.rel x))).2 = [x] := by
  intro k
  induction k with
  | zero =>
      intro m hc
      have h0 : m.container_ x = some 1 := by simpa using hc
      have hstate : (step m (Op.rel x)).1.container_ x = none := by
        simp [step, CppInstanceManager.ReleaseReference, hx, h0]
      have hdel : (step m (Op.rel x)).2 = some x := by
        simp [step, CppInstanceManager.ReleaseReference, hx, h0]
      simp [List.replicate_succ, runTrace, hdel]
  | succ j ih =>
      intro m hc
      have hc2 : m.container_ x = some ((j : Int) + 1 + 1) := by
        rw [hc]
        congr 1
      have hgt : (1 : Int) < (j : Int) + 1 + 1 := by
        have : (0 : Int) ≤ (j : Int) := Int.natCast_nonneg j
        omega
      obtain ⟨_, hr2, hr3⟩ :=
        releaseReference_above_one m x hx ((j : Int) + 1 + 1) hgt hc2
      have hstate : (step m (Op.rel x)).1.container_ x = some ((j : Int) + 1) := by
        show (m.ReleaseReference x).state.container_ x = some ((j : Int) + 1)
        rw [hr3]
        congr 1
        ring
      have hdel : (step m (Op.rel x)).2 = none := hr2
      calc (runTrace m (List.replicate (j + 1 + 1) (Op.rel x))).2
          = (step m (Op.rel x)).2.toList ++
              (runTrace (step m (Op.rel x)).1 (List.replicate (j + 1) (Op.rel x))).2 := by
            rw [List.replicate_succ]
            rfl
        _ = [x] := by
            rw [hdel, ih (step m (Op.rel x)).1 hstate]
            rfl

/-- C8 counterexample: `[add 5, rel 5, add 5, rel 5]` is a legitimate
interleaving of `N = 2` threads each performing one `AddReference(5)` followed
by one `ReleaseReference(5)` (thread 1 runs to completion before thread 2
starts), yet the run from the empty registry deletes the instance `5` twice,
not exactly once: the claim that every interleaving yields exactly one
destruction, only after all `N` releases, is false. -/
theorem c8_counterexample :
    isInterleaving 5 2 [Op.add 5, Op.rel 5, Op.add 5, Op.rel 5] ∧
    (runTrace CppInstanceManager.init [Op.add 5, Op.rel 5, Op.add 5, Op.rel 5]).2 =
      [5, 5] ∧
    ¬ ((runTrace CppInstanceManager.init
        [Op.add 5, Op.rel 5, Op.add 5, Op.rel 5]).2.length = 1) := by
  refine ⟨⟨rfl, rfl, ?_, ?_⟩, rfl, by decide⟩
  · decide
  · decide

theorem count_add_cons_add (x : InstancePtr) (l : List Op) :
    (Op.add x :: l).count (Op.add x) = l.count (Op.add x) + 1 := by
  simp

theorem count_add_cons_rel (x : InstancePtr) (l : List Op) :
    (Op.add x :: l).count (Op.rel x) = l.count (Op.rel x) := by
  simp

theorem count_rel_cons_rel (x : InstancePtr) (l : List Op) :
    (Op.rel x :: l).count (Op.rel x) = l.count (Op.rel x) + 1 := by
  simp

theorem count_rel_cons_add (x : InstancePtr) (l : List Op) :
    (Op.rel x :: l).count (Op.add x) = l.count (Op.add x) := by
  simp

theorem count_ops_length (x : InstancePtr) :
    ∀ tr : List Op, (∀ op ∈ tr, op = Op.add x ∨ op = Op.rel x) →
      tr.count (Op.add x) + tr.count (Op.rel x) = tr.length := by
  intro tr
  induction tr with
  | nil => intro _; simp
  | cons op rest ih =>
      intro hops
      have hrest := ih (fun o ho => hops o (List.mem_cons_of_mem _ ho))
      rcases hops op (List.mem_cons_self op rest) with hop | hop <;> subst hop <;>
        simp [List.count_cons] <;> omega

theorem runTrace_deletes_once_at_end (x : InstancePtr) (hx : x ≠ nullPtr) :
    ∀ (tr : List Op) (m : CppInstanceManager) (c : Int),
      (∀ op ∈ tr, op = Op.add x ∨ op = Op.rel x) →
      m.container_ x = some c → 1 ≤ c →
      (∀ k, 0 < k → k < tr.length →
        (((tr.take k).count (Op.rel x) : Int)) <
          c + ((tr.take k).count (Op.add x) : Int)) →
      c + ((tr.count (Op.add x) : Int)) = ((tr.count (Op.rel x) : Int)) →
      (runTrace m tr).2 = [x] := by
  intro tr
  induction tr with
  | nil =>
      intro m c _ _ hc _ hfin
      simp at hfin
      omega
  | cons op rest ih =>
      intro m c hops hm hc hmid hfin
      have hops' : ∀ o ∈ rest, o = Op.add x ∨ o = Op.rel x :=
        fun o ho => hops o (List.mem_cons_of_mem _ ho)
      rcases hops op (List.mem_cons_self op rest) with hop | hop
      · subst hop
        have hstate : (step m (Op.add x)).1.container_ x = some (c + 1) := by
          simp [step, CppInstanceManager.AddReference, hm]
        have hdel : (step m (Op.add x)).2 = none := by
          simp [step, addReference_deleted]
        have hmid' : ∀ k, 0 < k → k < rest.length →
            (((rest.take k).count (Op.rel x) : Int)) <
              (c + 1) + ((rest.take k).count (Op.add x) : Int) := by
          intro k hk hkl
          have h := hmid (k + 1) (by omega) (by simp [List.length_cons]; omega)
          rw [List.take_succ_cons] at h
          simp [List.count_cons] at h
          omega
        have hfin' : (c + 1) + ((rest.count (Op.add x) : Int)) =
            ((rest.count (Op.rel x) : Int)) := by
          simp [List.count_cons] at hfin
          omega
        calc (runTrace m (Op.add x :: rest)).2
            = (step m (Op.add x)).2.toList ++
                (runTrace (step m (Op.add x)).1 rest).2 := rfl
          _ = [x] := by
              rw [hdel, ih _ (c + 1) hops' hstate (by omega) hmid' hfin']
              rfl
      · subst hop
        cases rest with
        | nil =>
            have hc1 : c = 1 := by
              simp [List.count_cons] at hfin
              omega
            subst hc1
            have hdel : (step m (Op.rel x)).2 = some x :=
              (releaseReference_at_one m x hx hm).2.1
            calc (runTrace m [Op.rel x]).2
                = (step m (Op.rel x)).2.toList ++
                    (runTrace (step m (Op.rel x)).1 []).2 := rfl
              _ = [x] := by rw [hdel]; rfl
        | cons r rest2 =>
            have hgt : (1 : Int) < c := by
              have h := hmid 1 (by omega) (by simp only [List.length_cons]; omega)
              simp [List.count_cons] at h
              omega
            obtain ⟨_, hr2, hr3⟩ := releaseReference_above_one m x hx c hgt hm
            have hstate : (step m (Op.rel x)).1.container_ x = some (c - 1) := hr3
            have hdel : (step m (Op.rel x)).2 = none := hr2
            have hmid' : ∀ k, 0 < k → k < (r :: rest2).length →
                ((((r :: rest2).take k).count (Op.rel x) : Int)) <
                  (c - 1) + (((r :: rest2).take k).count (Op.add x) : Int) := by
              intro k hk hkl
              have h := hmid (k + 1) (by omega)
                (by simp only [List.length_cons] at hkl ⊢; omega)
              rw [List.take_succ_cons, count_rel_cons_rel, count_rel_cons_add] at h
              push_cast at h ⊢
              omega
            have hfin' : (c - 1) + (((r :: rest2).count (Op.add x) : Int)) =
                (((r :: rest2).count (Op.rel x) : Int)) := by
              rw [count_rel_cons_add, count_rel_cons_rel] at hfin
              push_cast at hfin ⊢
              omega
            calc (runTrace m (Op.rel x :: r :: rest2)).2
                = (step m (Op.rel x)).2.toList ++
                    (runTrace (step m (Op.rel x)).1 (r :: rest2)).2 := rfl
              _ = [x] := by
                  rw [hdel, ih _ (c - 1) hops' hstate (by omega) hmid' hfin']
                  rfl

theorem runTrace_stays_positive (x : InstancePtr) (hx : x ≠ nullPtr) :
    ∀ (tr : List Op) (m : CppInstanceManager) (c : Int),
      (∀ op ∈ tr, op = Op.add x ∨ op = Op.rel x) →
      m.container_ x = some c → 1 ≤ c →
      (∀ k, 0 < k → k ≤ tr.length →
        (((tr.take k).count (Op.rel x) : Int)) <
          c + ((tr.take k).count (Op.add x) : Int)) →
      (runTrace m tr).2 = [] := by
  intro tr
  induction tr with
  | nil => intro m c _ _ _ _; rfl
  | cons op rest ih =>
      intro m c hops hm hc hmid
      have hops' : ∀ o ∈ rest, o = Op.add x ∨ o = Op.rel x :=
        fun o ho => hops o (List.mem_cons_of_mem _ ho)
      rcases hops op (List.mem_cons_self op rest) with hop | hop
      · subst hop
        have hstate : (step m (Op.add x)).1.container_ x = some (c + 1) := by
          simp [step, CppInstanceManager.AddReference, hm]
        have hdel : (step m (Op.add x)).2 = none := by
          simp [step, addReference_deleted]
        have hmid' : ∀ k, 0 < k → k ≤ rest.length →
            (((rest.take k).count (Op.rel x) : Int)) <
              (c + 1) + ((rest.take k).count (Op.add x) : Int) := by
          intro k hk hkl
          have h := hmid (k + 1) (by omega) (by simp [List.length_cons]; omega)
          rw [List.take_succ_cons] at h
          simp [List.count_cons] at h
          omega
        calc (runTrace m (Op.add x :: rest)).2
            = (step m (Op.add x)).2.toList ++
                (runTrace (step m (Op.add x)).1 rest).2 := rfl
          _ = [] := by
              rw [hdel, ih _ (c + 1) hops' hstate (by omega) hmid']
              rfl
      · subst hop
        have hgt : (1 : Int) < c := by
          have h := hmid 1 (by omega) (by simp [List.length_cons])
          simp [List.count_cons] at h
          omega
        obtain ⟨_, hr2, hr3⟩ := releaseReference_above_one m x hx c hgt hm
        have hstate : (step m (Op.rel x)).1.container_ x = some (c - 1) := hr3
        have hdel : (step m (Op.rel x)).2 = none := hr2
        have hmid' : ∀ k, 0 < k → k ≤ rest.length →
            (((rest.take k).count (Op.rel x) : Int)) <
              (c - 1) + ((rest.take k).count (Op.add x) : Int) := by
          intro k hk hkl
          have h := hmid (k + 1) (by omega) (by simp [List.length_cons]; omega)
          rw [List.take_succ_cons] at h
          simp [List.count_cons] at h
          omega
        calc (runTrace m (Op.rel x :: rest)).2
            = (step m (Op.rel x)).2.toList ++
                (runTrace (step m (Op.rel x)).1 rest).2 := rfl
          _ = [] := by
              rw [hdel, ih _ (c - 1) hops' hstate (by omega) hmid']
              rfl

/-- C8, amended: with all calls serialized by the registry mutex, for `N ≥ 1`
threads each performing one `AddReference(x)` and then one
`ReleaseReference(x)` on a shared non-null `x` initially untracked: in every
interleaving in which no nonempty proper prefix contains as many releases as
adds — i.e. the reference count never returns to zero before the final
operation — `x` is deleted exactly once, by the final (`2N`-th) operation,
hence only after all `N` releases: no proper prefix of the run deletes
anything.  The excluded interleavings are exactly those with an intermediate
zero-crossing, where the counterexample shows a second deletion of the same
pointer. -/
theorem c8_amended_serialized (x : InstancePtr) (hx : x ≠ nullPtr) (N : Nat)
    (hN : 1 ≤ N) (m : CppInstanceManager) (hm : m.container_ x = none)
    (tr : List Op) (htr : isInterleaving x N tr)
    (hmid : ∀ k, 0 < k → k < tr.length →
      (tr.take k).count (Op.rel x) < (tr.take k).count (Op.add x)) :
    (runTrace m tr).2 = [x] ∧
    ∀ k, k < tr.length → (runTrace m (tr.take k)).2 = [] := by
  obtain ⟨hlen, hadd, hops, _⟩ := htr
  have hrel : tr.count (Op.rel x) = N := by
    have h := count_ops_length x tr hops
    omega
  cases tr with
  | nil =>
      simp at hlen
      omega
  | cons op rest =>
      have hops' : ∀ o ∈ rest, o = Op.add x ∨ o = Op.rel x :=
        fun o ho => hops o (List.mem_cons_of_mem _ ho)
      have hop : op = Op.add x := by
        rcases hops op (List.mem_cons_self op rest) with h | h
        · exact h
        · exfalso
          have h1 := hmid 1 (by omega) (by omega)
          subst h
          simp [List.count_cons] at h1
      subst hop
      have hstate : (step m (Op.add x)).1.container_ x = some 1 := by
        simp [step, CppInstanceManager.AddReference, hm]
      have hdel : (step m (Op.add x)).2 = none := by
        simp [step, addReference_deleted]
      have ha' : rest.count (Op.add x) + 1 = N := by
        simp [List.count_cons] at hadd
        omega
      have hr' : rest.count (Op.rel x) = N := by
        simp [List.count_cons] at hrel
        omega
      constructor
      · have hmidr : ∀ k, 0 < k → k < rest.length →
            (((rest.take k).count (Op.rel x) : Int)) <
              1 + ((rest.take k).count (Op.add x) : Int) := by
          intro k hk hkl
          have h := hmid (k + 1) (by omega) (by simp [List.length_cons]; omega)
          rw [List.take_succ_cons] at h
          simp [List.count_cons] at h
          omega
        have hfin : (1 : Int) + ((rest.count (Op.add x) : Int)) =
            ((rest.count (Op.rel x) : Int)) := by
          omega
        calc (runTrace m (Op.add x :: rest)).2
            = (step m (Op.add x)).2.toList ++
                (runTrace (step m (Op.add x)).1 rest).2 := rfl
          _ = [x] := by
              rw [hdel, runTrace_deletes_once_at_end x hx rest _ 1 hops' hstate
                (by omega) hmidr hfin]
              rfl
      · intro k hk
        cases k with
        | zero => rfl
        | succ j =>
            have hj : j < rest.length := by
              simp [List.length_cons] at hk
              omega
            rw [List.take_succ_cons]
            have hops2 : ∀ o ∈ rest.take j, o = Op.add x ∨ o = Op.rel x :=
              fun o ho => hops' o (List.take_subset j rest ho)
            have hmid2 : ∀ i, 0 < i → i ≤ (rest.take j).length →
                ((((rest.take j).take i).count (Op.rel x) : Int)) <
                  1 + (((rest.take j).take i).count (Op.add x) : Int) := by
              intro i hi hil
              have hij : i ≤ j := by
                simp [List.length_take] at hil
                omega
              rw [List.take_take, min_eq_left hij]
              have hir : i < rest.length := by
                simp [List.length_take] at hil
                omega
              have h := hmid (i + 1) (by omega) (by simp [List.length_cons]; omega)
              rw [List.take_succ_cons] at h
              simp [List.count_cons] at h
              omega
            calc (runTrace m (Op.add x :: rest.take j)).2
                = (step m (Op.add x)).2.toList ++
                    (runTrace (step m (Op.add x)).1 (rest.take j)).2 := rfl
              _ = [] := by
                  rw [hdel, runTrace_stays_positive x hx (rest.take j) _ 1 hops2
                    hstate (by omega) hmid2]
                  rfl

/-- C8 amended witness: for three threads, the interleaving
`[add, add, rel, add, rel, rel]` — in which one release precedes a later add
but the count never returns to zero mid-trace — deletes `5` exactly once, by
the final operation, and no proper prefix deletes anything. -/
theorem c8_amended_witness :
    (runTrace CppInstanceManager.init
      [Op.add 5, Op.add 5, Op.rel 5, Op.add 5, Op.rel 5, Op.rel 5]).2 = [5] ∧
    ∀ k, k < ([Op.add 5, Op.add 5, Op.rel 5, Op.add 5, Op.rel 5, Op.rel 5] : List Op).length →
      (runTrace CppInstanceManager.init
        (([Op.add 5, Op.add 5, Op.rel 5, Op.add 5, Op.rel 5, Op.rel 5] : List Op).take k)).2 =
        [] :=
  c8_amended_serialized 5 (by decide) 3 (by decide) CppInstanceManager.init rfl
    [Op.add 5, Op.add 5, Op.rel 5, Op.add 5, Op.rel 5, Op.rel 5]
    (by refine ⟨rfl, rfl, ?_, ?_⟩ <;> decide)
    (by
      intro k hk hkl
      have h6 : k < 6 := by simpa using hkl
      interval_cases k <;> decide)

end firebase
